import Mathlib

set_option maxRecDepth 8000

/-! A shallow embedding of the RStudio `SessionCodeSearch.cpp` module: the
project source-file index (entry store and indexing queue), the live
source-document index, the fuzzy matcher and scorer (`scoreMatch`), the
bounded two-list merge (`filterScores`), and the `search_code` request
pipeline, together with proofs about them.  External capabilities (file
reading, the R parser, the C++ definition index, regex matching, `std::sort`)
are abstracted as parameters or modelled from the specification, as noted in
the doc comments. -/

/-- Modelled from the spec: ASCII lowercasing as performed by the external
`boost::algorithm::to_lower_copy` and the case-insensitive matchers. -/
def toLowerChar (c : Char) : Char :=
  if 65 ≤ c.toNat ∧ c.toNat ≤ 90 then Char.ofNat (c.toNat + 32) else c

/-- Modelled from the spec: lowercased copy of a string. -/
def lowerString (s : String) : String :=
  String.mk (s.toList.map toLowerChar)

/-- Modelled from the spec: the suffix of a character list after its last
occurrence of `sep` (helper for filename and extension extraction). -/
def afterLastSep (sep : Char) (l : List Char) : List Char :=
  l.foldl (fun acc c => if c = sep then [] else acc ++ [c]) []

/-- Modelled from the spec: `FilePath::filename` (core library, outside the
module) — the last slash-separated component of a path. -/
def fileNameOfPath (path : String) : String :=
  String.mk (afterLastSep '/' path.toList)

/-- Modelled from the spec: `string_utils::getExtension` — the substring of the
string from its last dot (inclusive); empty when there is no dot. -/
def getExtension (s : String) : String :=
  if s.toList.contains '.' then String.mk ('.' :: afterLastSep '.' s.toList) else ""

/-- Modelled from the spec: `FilePath::extensionLowerCase`. -/
def extensionLowerCase (path : String) : String :=
  lowerString (getExtension (fileNameOfPath path))

/-- A file identity as seen by the indexer (`core::FileInfo`). -/
structure FileInfo where
  absolutePath : String
  isDirectory : Bool
  deriving DecidableEq

/-- `isIndexableSourceFile`: only plain `.R` files are subject to symbol
extraction; every other tracked file is kept for filename search only. -/
def isIndexableSourceFile (f : FileInfo) : Bool :=
  !f.isDirectory && extensionLowerCase f.absolutePath == ".r"

/-- Modelled from the spec: `module_context::createAliasedPath` only rewrites
the home-directory spelling of a path; contexts compare equal across the live
index and the entry store, so it is the identity here. -/
def createAliasedPath (path : String) : String := path

/-- The subset of `r_util::RSourceItem::Type` values that `fromRSourceItem`
distinguishes. -/
inductive RSourceItemType where
  | Function
  | Method
  | Class
  | None
  deriving DecidableEq

/-- An R symbol record (`r_util::RSourceItem`): kind, name, signature parameter
types, owning context, and position. -/
structure RSourceItem where
  typ : RSourceItemType
  name : String
  signature : List String
  context : String
  line : Int
  column : Int
  deriving DecidableEq

/-- A per-document or per-file symbol index (`r_util::RSourceIndex`): the
context it was built from plus its parsed items. -/
structure RSourceIndex where
  context : String
  items : List RSourceItem
  deriving DecidableEq

/-- Modelled from the spec: `RSourceIndex::search` (external r_util library)
appends exactly the indexed items accepted by the term matcher; the
case-insensitive prefix/subsequence matcher itself is the abstract predicate
`p`. -/
def RSourceIndex.search (idx : RSourceIndex) (p : RSourceItem → Bool) : List RSourceItem :=
  idx.items.filter p

/-- An entry of the project index (`SourceFileIndex::Entry`): a file identity
and, for indexable files, its symbol index. -/
structure Entry where
  fileInfo : FileInfo
  pIndex : Option RSourceIndex
  deriving DecidableEq

def Entry.hasIndex (e : Entry) : Bool := e.pIndex.isSome

/-- `core::fileInfoPathLessThan`: entries are ordered by absolute path. -/
def fileInfoPathLessThan (a b : FileInfo) : Bool :=
  decide (a.absolutePath < b.absolutePath)

/-- `std::set<Entry>::insert`: insert in path order; report `false` without
changing the set when an equivalent entry (same path) is already present. -/
def setInsert (e : Entry) : List Entry → List Entry × Bool
  | [] => ([e], true)
  | x :: xs =>
    if fileInfoPathLessThan e.fileInfo x.fileInfo then (e :: x :: xs, true)
    else if fileInfoPathLessThan x.fileInfo e.fileInfo then
      (x :: (setInsert e xs).1, (setInsert e xs).2)
    else (x :: xs, false)

/-- `std::set<Entry>::find` followed by `erase`: remove the entry equivalent to
`key` (neither less than the other), if present. -/
def setErase (key : FileInfo) : List Entry → List Entry
  | [] => []
  | x :: xs =>
    if !fileInfoPathLessThan key x.fileInfo && !fileInfoPathLessThan x.fileInfo key then xs
    else x :: setErase key xs

/-- The upsert performed by `updateIndexEntry`: plain insert, and on an insert
failure erase the stale equivalent entry and re-insert.  Both the `begin` and
the hint-iterator branches of the source erase and re-insert; the hint only
changes the insertion cost, never the resulting set. -/
def insertEntry (entries : List Entry) (e : Entry) : List Entry :=
  if (setInsert e entries).2 then (setInsert e entries).1
  else (setInsert e (setErase e.fileInfo entries)).1

/-- Modelled from the spec: the outcome of `module_context::readAndDecodeFile`
— the decoded content, a path-not-found failure, or any other (decode)
failure. -/
inductive ReadResult where
  | ok (code : String)
  | notFound
  | decodeError
  deriving DecidableEq

/-- `updateIndexEntry`: for an indexable file re-read and re-parse it (on a
read failure, log unless the path vanished, and leave the store untouched);
otherwise build an index-less entry; then upsert.  Returns the store and
whether an error was logged.  `extractSymbols` abstracts the external R parser
invoked by the `RSourceIndex` constructor. -/
def updateIndexEntry (read : FileInfo → ReadResult)
    (extractSymbols : String → String → List RSourceItem)
    (entries : List Entry) (fileInfo : FileInfo) : List Entry × Bool :=
  if isIndexableSourceFile fileInfo then
    match read fileInfo with
    | ReadResult.notFound => (entries, false)
    | ReadResult.decodeError => (entries, true)
    | ReadResult.ok code =>
      let context := createAliasedPath fileInfo.absolutePath
      (insertEntry entries ⟨fileInfo, some ⟨context, extractSymbols context code⟩⟩, false)
  else
    (insertEntry entries ⟨fileInfo, none⟩, false)

/-- `removeIndexEntry`: erase the entry for the file, if any. -/
def removeIndexEntry (entries : List Entry) (fileInfo : FileInfo) : List Entry :=
  setErase fileInfo entries

/-- `core::system::FileChangeEvent` event kinds. -/
inductive FileEventType where
  | FileAdded
  | FileModified
  | FileRemoved
  | None
  deriving DecidableEq

structure FileChangeEvent where
  type : FileEventType
  fileInfo : FileInfo
  deriving DecidableEq

/-- The mutable state of `SourceFileIndex`: the entry store, the `indexing_`
flag and the FIFO indexing queue (front of the queue at the head). -/
structure IndexState where
  entries : List Entry
  indexing : Bool
  indexingQueue : List FileChangeEvent
  deriving DecidableEq

/-- The event switch of `dequeAndIndex`: update the entry for Added/Modified,
erase it for Removed, nothing for None. -/
def processEvent (read : FileInfo → ReadResult)
    (extractSymbols : String → String → List RSourceItem)
    (entries : List Entry) (ev : FileChangeEvent) : List Entry :=
  match ev.type with
  | FileEventType.FileAdded => (updateIndexEntry read extractSymbols entries ev.fileInfo).1
  | FileEventType.FileModified => (updateIndexEntry read extractSymbols entries ev.fileInfo).1
  | FileEventType.FileRemoved => removeIndexEntry entries ev.fileInfo
  | FileEventType.None => entries

/-- `dequeAndIndex`: pop one event (FIFO) and process it; then record and
return whether work remains. -/
def dequeAndIndex (read : FileInfo → ReadResult)
    (extractSymbols : String → String → List RSourceItem)
    (st : IndexState) : IndexState × Bool :=
  match st.indexingQueue with
  | [] => ({ st with indexing := false }, false)
  | ev :: rest =>
    ({ entries := processEvent read extractSymbols st.entries ev,
       indexing := !rest.isEmpty, indexingQueue := rest }, !rest.isEmpty)

/-- Run `fuel` background steps of `dequeAndIndex`. -/
def drain (read : FileInfo → ReadResult)
    (extractSymbols : String → String → List RSourceItem) :
    Nat → IndexState → IndexState
  | 0, st => st
  | fuel + 1, st => drain read extractSymbols fuel (dequeAndIndex read extractSymbols st).1

/-- `SourceFileIndex::clear` (run by `onFileMonitorDisabled`): reset the flag,
drop the queue and every entry. -/
def clearIndex (_st : IndexState) : IndexState :=
  { entries := [], indexing := false, indexingQueue := [] }

def onFileMonitorDisabled (st : IndexState) : IndexState := clearIndex st

/-- Number of store entries recorded for an absolute path. -/
def countFor (path : String) (entries : List Entry) : Nat :=
  (entries.filter (fun e => e.fileInfo.absolutePath == path)).length

/-- Whether the store holds an entry for an absolute path. -/
def hasEntryFor (path : String) (entries : List Entry) : Bool :=
  entries.any (fun e => e.fileInfo.absolutePath == path)

/-- The `std::set` representation invariant: entries strictly sorted by path
(hence at most one entry per file identity). -/
def StoreInv (entries : List Entry) : Prop :=
  entries.Pairwise (fun a b => a.fileInfo.absolutePath < b.fileInfo.absolutePath)

instance (entries : List Entry) : Decidable (StoreInv entries) := by
  unfold StoreInv; infer_instance

/-- Well-formedness of one entry: the items of its index carry the index's own
context (the `RSourceIndex` constructor stamps its context on every parsed
item). -/
def EntryWF (e : Entry) : Prop :=
  ∀ idx ∈ e.pIndex.toList, ∀ it ∈ idx.items, it.context = idx.context

instance (e : Entry) : Decidable (EntryWF e) := by
  unfold EntryWF; infer_instance

/-- `searchSourceDatabase` (anonymous namespace): scan the live-document
indexes, skipping those rejected by the project-scope filter `filt`, recording
each visited context, accumulating matching items, and truncating plus
returning early once `maxResults` is reached. -/
def searchSourceDatabase (p : RSourceItem → Bool) (filt : RSourceIndex → Bool)
    (maxResults : Nat) : List RSourceIndex → List RSourceItem → List String →
    List RSourceItem × List String
  | [], items, ctxs => (items, ctxs)
  | idx :: rest, items, ctxs =>
    if filt idx then
      let ctxs2 := ctxs ++ [idx.context]
      let items2 := items ++ idx.search p
      if maxResults ≤ items2.length then (items2.take maxResults, ctxs2)
      else searchSourceDatabase p filt maxResults rest items2 ctxs2
    else searchSourceDatabase p filt maxResults rest items ctxs

/-- `SourceFileIndex::searchSource`: scan the entry store in identity order,
skipping index-less entries and entries whose context is excluded,
accumulating matching items, and truncating plus returning early once
`maxResults` is reached. -/
def searchProjectSource (p : RSourceItem → Bool) (maxResults : Nat)
    (excludeContexts : List String) : List Entry → List RSourceItem → List RSourceItem
  | [], items => items
  | e :: rest, items =>
    match e.pIndex with
    | none => searchProjectSource p maxResults excludeContexts rest items
    | some idx =>
      if excludeContexts.contains idx.context then
        searchProjectSource p maxResults excludeContexts rest items
      else
        let items2 := items ++ idx.search p
        if maxResults ≤ items2.length then items2.take maxResults
        else searchProjectSource p maxResults excludeContexts rest items2

/-- The copy loop at the end of `code_search::searchSource`: push project items
one at a time, truncating and reporting more-available once the total exceeds
`maxResults`. -/
def pushItemsCapped (maxResults : Nat) : List RSourceItem → List RSourceItem →
    List RSourceItem × Bool
  | items, [] => (items, false)
  | items, x :: xs =>
    let items2 := items ++ [x]
    if maxResults < items2.length then (items2.take maxResults, true)
    else pushItemsCapped maxResults items2 xs

/-- `code_search::searchSource`: search the live-document index first,
recording the contexts it covered, then search the entry store for the same
term excluding those contexts, with the remaining budget. -/
def searchSource (p : RSourceItem → Bool) (filt : RSourceIndex → Bool)
    (maxResults : Nat) (dbIndexes : List RSourceIndex) (entries : List Entry) :
    List RSourceItem × Bool :=
  let db := searchSourceDatabase p filt maxResults dbIndexes [] []
  if maxResults < db.1.length then (db.1.take maxResults, true)
  else
    let maxProjResults := maxResults - db.1.length
    let projItems := searchProjectSource p maxProjResults db.2 entries []
    pushItemsCapped maxResults db.1 projItems

/-- Whether the term triggers wildcard (glob/regex) matching
(`regex_utils::regexIfWildcardPattern` builds a pattern when the term contains
an asterisk). -/
def hasWildcard (term : String) : Bool :=
  term.toList.contains '*'

/-- The length of the portion of the term before its first colon: a query may
carry a trailing `:row:column` locator which does not participate in filename
matching. -/
def queryEndOf (term : String) : Nat :=
  (term.toList.takeWhile (fun c => c ≠ ':')).length

/-- Modelled from the spec: `string_utils::isSubsequence` — every character of
the term appears in the candidate in order. -/
def isSubsequenceChars : List Char → List Char → Bool
  | _, [] => true
  | [], _ :: _ => false
  | c :: cs, t :: ts =>
    if c = t then isSubsequenceChars cs ts
    else isSubsequenceChars cs (t :: ts)

/-- Case-insensitive subsequence test on strings. -/
def isSubsequenceCI (candidate term : String) : Bool :=
  isSubsequenceChars (lowerString candidate).toList (lowerString term).toList

/-- The plain (non-wildcard, non-prefix) filename match of
`SourceFileIndex::searchFiles`: case-insensitive subsequence of the term up to
its first colon. -/
def fileNameMatchesPlain (name term : String) : Bool :=
  isSubsequenceCI name (String.mk (term.toList.take (queryEndOf term)))

/-- Modelled from the spec: the case-sensitive three-argument
`string_utils::isSubsequence` used by `searchSourceDatabaseFiles`. -/
def fileNameMatchesPlainCS (name term : String) : Bool :=
  isSubsequenceChars name.toList (term.toList.take (queryEndOf term))

/-- The per-document filename match of `searchSourceDatabaseFiles`: wildcard
terms go through the regex matcher, otherwise the plain subsequence match
applies. -/
def dbFileNameMatches (regexMatches : String → Bool) (term : String)
    (name : String) : Bool :=
  if hasWildcard term then regexMatches name
  else fileNameMatchesPlainCS name term

/-- Case-insensitive starts-with (`boost::algorithm::istarts_with`). -/
def istartsWith (name term : String) : Bool :=
  (lowerString term).toList.isPrefixOf (lowerString name).toList

/-- The per-entry filename match of `SourceFileIndex::searchFiles`:
wildcard terms go through the regex matcher (abstracted as `regexMatches`),
otherwise prefix or plain subsequence matching applies. -/
def fileEntryMatches (regexMatches : String → Bool) (term : String)
    (prefOnly : Bool) (name : String) : Bool :=
  if hasWildcard term then regexMatches name
  else if prefOnly then istartsWith name term
  else fileNameMatchesPlain name term

/-- The scan loop of `SourceFileIndex::searchFiles`: collect matching names
and aliased paths; `enforceMaxResults` truncates both lists and reports
more-available once they exceed `maxResults`. -/
def searchFilesLoop (regexMatches : String → Bool) (term : String)
    (prefOnly : Bool) (maxResults : Nat) :
    List Entry → List String → List String → List String × List String × Bool
  | [], names, paths => (names, paths, false)
  | e :: rest, names, paths =>
    let name := fileNameOfPath e.fileInfo.absolutePath
    if fileEntryMatches regexMatches term prefOnly name then
      let names2 := names ++ [name]
      let paths2 := paths ++ [createAliasedPath e.fileInfo.absolutePath]
      if maxResults < names2.length then
        (names2.take maxResults, paths2.take maxResults, true)
      else searchFilesLoop regexMatches term prefOnly maxResults rest names2 paths2
    else searchFilesLoop regexMatches term prefOnly maxResults rest names paths

/-- `SourceFileIndex::searchFiles`. -/
def projectSearchFiles (regexMatches : String → Bool) (term : String)
    (maxResults : Nat) (prefOnly : Bool) (entries : List Entry) :
    List String × List String × Bool :=
  searchFilesLoop regexMatches term prefOnly maxResults entries [] []

/-- `searchSourceDatabaseFiles`: derive filenames from the live-document index
(used when no file monitor is active); documents without a path are skipped. -/
def searchSourceDatabaseFiles (regexMatches : String → Bool) (term : String)
    (maxResults : Nat) : List RSourceIndex → List String → List String →
    List String × List String × Bool
  | [], names, paths => (names, paths, false)
  | idx :: rest, names, paths =>
    if idx.context == "" then
      searchSourceDatabaseFiles regexMatches term maxResults rest names paths
    else
      let name := fileNameOfPath idx.context
      if dbFileNameMatches regexMatches term name then
        let names2 := names ++ [name]
        let paths2 := paths ++ [idx.context]
        if maxResults < names2.length then
          (names2.take maxResults, paths2.take maxResults, true)
        else searchSourceDatabaseFiles regexMatches term maxResults rest names2 paths2
      else searchSourceDatabaseFiles regexMatches term maxResults rest names paths

/-- `code_search::searchFiles`: project index when a file monitor is active,
otherwise fall back to the live-document index. -/
def searchFiles (regexMatches : String → Bool) (hasFileMonitor : Bool)
    (term : String) (maxResults : Nat) (dbIndexes : List RSourceIndex)
    (entries : List Entry) : List String × List String × Bool :=
  if hasFileMonitor then projectSearchFiles regexMatches term maxResults false entries
  else searchSourceDatabaseFiles regexMatches term maxResults dbIndexes [] []

/-- Modelled from the spec: `string_utils::subsequenceIndices` — the positions
of the greedy left-to-right subsequence match of the query in the suggestion
(both already lowercased by the caller); `pos` is the current scan position. -/
def subsequenceIndicesAux : List Char → List Char → Nat → List Nat
  | _, [], _ => []
  | [], _ :: _, _ => []
  | c :: cs, t :: ts, pos =>
    if c = t then pos :: subsequenceIndicesAux cs ts (pos + 1)
    else subsequenceIndicesAux cs (t :: ts) (pos + 1)

def subsequenceIndices (s q : String) : List Nat :=
  subsequenceIndicesAux s.toList q.toList 0

/-- The delimiter test of `scoreMatch`: underscore, dash, or — for non-file
candidates — a dot. -/
def isBoundaryDelim (c : Char) (isFile : Bool) : Bool :=
  c == '_' || c == '-' || (!isFile && c == '.')

/-- One iteration of the `scoreMatch` loop: the raw match position, replaced by
`j + 1` when the matched character follows a delimiter, plus 3 when the
suggestion has the low-value `.Rd` extension. -/
def scoreMatchContrib (suggestion : String) (matchPositions : List Nat)
    (isFile : Bool) (j : Nat) : Int :=
  let raw := matchPositions.getD j 0
  let base : Int :=
    if 1 ≤ raw then
      if isBoundaryDelim (suggestion.toList.getD (raw - 1) ' ') isFile then (j : Int) + 1
      else (raw : Int)
    else (raw : Int)
  if lowerString (getExtension suggestion) == ".rd" then base + 3 else base

/-- `scoreMatch` (lower is better): 0 for an exact full-string match; otherwise
the summed per-character contributions, plus a flat 1 for file candidates. -/
def scoreMatch (suggestion query : String) (isFile : Bool) : Int :=
  if suggestion == query then 0
  else
    let query_n := query.length
    let found := subsequenceIndices (lowerString suggestion) (lowerString query)
    let result := (List.range query_n).foldl
      (fun acc j => acc + scoreMatchContrib suggestion found isFile j) 0
    if isFile then result + 1 else result

/-- The C6 scoring rule exactly as the specification words it: sum, over the
query positions, of the effective position — the raw matched index, or the
one-based query index of the character when it immediately follows a
delimiter — plus a penalty of 3 per matched character for low-value `.Rd`
suggestions, plus a flat 1 for file candidates; 0 for an exact match. -/
def scoreMatchClaim (suggestion query : String) (isFile : Bool) : Int :=
  if suggestion == query then 0
  else
    let n := query.length
    let positions := subsequenceIndices (lowerString suggestion) (lowerString query)
    let effectivePos : Nat → Int := fun j =>
      let raw := positions.getD j 0
      if 1 ≤ raw && isBoundaryDelim (suggestion.toList.getD (raw - 1) ' ') isFile
      then (j : Int) + 1 else (raw : Int)
    ((List.range n).map effectivePos).sum
      + (if lowerString (getExtension suggestion) == ".rd" then 3 * (n : Int) else 0)
      + (if isFile then 1 else 0)

/-- Score of the pair at position `i` of a scored candidate list
(`std::vector<std::pair<int,int>>`; `.second` is the score). -/
def scoreAt (l : List (Nat × Int)) (i : Nat) : Int :=
  (l.getD i (0, 0)).2

/-- The counter loop of `filterScores`: `maxAmount` iterations, each draining
one element from the exhausted side or from whichever list has the lower head
score. -/
def filterScoresLoop (s1 s2 : List (Nat × Int)) : Nat → Nat → Nat → Nat × Nat
  | 0, c1, c2 => (c1, c2)
  | fuel + 1, c1, c2 =>
    if c1 = s1.length then
      filterScoresLoop s1 s2 fuel c1 (if c2 < s2.length then c2 + 1 else c2)
    else if c2 = s2.length then
      filterScoresLoop s1 s2 fuel (if c1 < s1.length then c1 + 1 else c1) c2
    else if scoreAt s1 c1 ≤ scoreAt s2 c2 then
      filterScoresLoop s1 s2 fuel (c1 + 1) c2
    else
      filterScoresLoop s1 s2 fuel c1 (c2 + 1)

/-- `filterScores`: run the merge loop, then resize both lists to the counts it
reached. -/
def filterScores (s1 s2 : List (Nat × Int)) (maxAmount : Nat) :
    List (Nat × Int) × List (Nat × Int) :=
  let c := filterScoresLoop s1 s2 maxAmount 0 0
  (s1.take c.1, s2.take c.2)

/-- The uniform client-side symbol kinds (`SourceItem::Type`). -/
inductive SourceItemType where
  | None
  | Function
  | Method
  | Class
  | Enum
  | Namespace
  deriving DecidableEq

/-- The uniform source-item representation sent to the client. -/
structure SourceItem where
  typ : SourceItemType
  name : String
  extraInfo : String
  context : String
  line : Int
  column : Int
  deriving DecidableEq

/-- The default-constructed `SourceItem`. -/
def defaultSourceItem : SourceItem :=
  ⟨SourceItemType.None, "", "", "", -1, -1⟩

/-- `fromRSourceItem`: map the R item kind and format the signature as a
brace-wrapped, comma-separated parameter-type list. -/
def fromRSourceItem (r : RSourceItem) : SourceItem :=
  let typ := match r.typ with
    | RSourceItemType.Function => SourceItemType.Function
    | RSourceItemType.Method => SourceItemType.Method
    | RSourceItemType.Class => SourceItemType.Class
    | RSourceItemType.None => SourceItemType.None
  let extraInfo :=
    if r.signature.length > 0 then
      "\x7b" ++ String.intercalate ", " r.signature ++ "\x7d"
    else ""
  ⟨typ, r.name, extraInfo, r.context, r.line, r.column⟩

/-- `clang::CppDefinitionKind` values distinguished by `fromCppDefinition`. -/
inductive CppDefinitionKind where
  | CppInvalidDefinition
  | CppNamespaceDefinition
  | CppClassDefinition
  | CppStructDefinition
  | CppEnumDefinition
  | CppFunctionDefinition
  | CppMemberFunctionDefinition
  deriving DecidableEq

/-- A C++ definition produced by the external `clang::searchDefinitions`. -/
structure CppDefinition where
  kind : CppDefinitionKind
  name : String
  filePath : String
  line : Int
  column : Int
  deriving DecidableEq

/-- `fromCppDefinition`. -/
def fromCppDefinition (d : CppDefinition) : SourceItem :=
  let typ := match d.kind with
    | CppDefinitionKind.CppInvalidDefinition => SourceItemType.None
    | CppDefinitionKind.CppNamespaceDefinition => SourceItemType.Namespace
    | CppDefinitionKind.CppClassDefinition => SourceItemType.Class
    | CppDefinitionKind.CppStructDefinition => SourceItemType.Class
    | CppDefinitionKind.CppEnumDefinition => SourceItemType.Enum
    | CppDefinitionKind.CppFunctionDefinition => SourceItemType.Function
    | CppDefinitionKind.CppMemberFunctionDefinition => SourceItemType.Method
  ⟨typ, d.name, "", createAliasedPath d.filePath, d.line, d.column⟩

/-- `safe_convert::numberTo<std::size_t>(maxResultsInt, 20)`: the requested
result cap, defaulting to 20 when the request value does not convert. -/
def searchCodeMaxResults (maxResultsInt : Int) : Nat :=
  if maxResultsInt < 0 then 20 else maxResultsInt.toNat

/-- The symbol candidates `searchCode` collects before scoring: R items from
the merged source search (hard-coded cap `1E2`), then every C++ definition the
external definition index returned, appended without a cap. -/
def collectSrcItems (p : RSourceItem → Bool) (filt : RSourceIndex → Bool)
    (dbIndexes : List RSourceIndex) (entries : List Entry)
    (cppDefs : List CppDefinition) : List SourceItem :=
  ((searchSource p filt 100 dbIndexes entries).1.map fromRSourceItem)
    ++ cppDefs.map fromCppDefinition

/-- The file-score pairs `searchCode` builds: index paired with the fuzzy score
of the candidate's name against the term (file flavour). -/
def fileScoresOf (names paths : List String) (term : String) : List (Nat × Int) :=
  (List.range paths.length).map (fun i => (i, scoreMatch (names.getD i "") term true))

/-- The symbol-score pairs `searchCode` builds. -/
def srcItemScoresOf (srcItems : List SourceItem) (term : String) : List (Nat × Int) :=
  (List.range srcItems.length).map
    (fun i => (i, scoreMatch ((srcItems.getD i defaultSourceItem).name) term false))

/-- The `more_available` bit `searchCode` reports: recomputed from whether the
bounded merge dropped candidates from either sorted score list. -/
def searchCodeMoreAvailable (fileScores srcItemScores : List (Nat × Int))
    (maxResults : Nat) : Bool :=
  let kept := filterScores fileScores srcItemScores maxResults
  decide (kept.1.length < fileScores.length)
    || decide (kept.2.length < srcItemScores.length)

/-- The `search_code` response: the two ranked result buckets (with their kept
score pairs exposed for the ordering claims) and the recomputed
`more_available` bit. -/
structure SearchCodeResponse where
  fileNames : List String
  filePaths : List String
  srcItems : List SourceItem
  keptFileScores : List (Nat × Int)
  keptSrcScores : List (Nat × Int)
  moreAvailable : Bool
  deriving DecidableEq

/-- The contract of the external, unstable `std::sort` at one input list: the
output is ordered by ascending score and is a permutation of the input.  Tie
order is not constrained. -/
def sortContractAt (sortImpl : List (Nat × Int) → List (Nat × Int))
    (l : List (Nat × Int)) : Prop :=
  (sortImpl l).Pairwise (fun a b => a.2 ≤ b.2) ∧ (sortImpl l).Perm l

instance (sortImpl : List (Nat × Int) → List (Nat × Int)) (l : List (Nat × Int)) :
    Decidable (sortContractAt sortImpl l) := by
  unfold sortContractAt; exact instDecidableAnd

/-- The `searchCode` request handler: collect file candidates (cap `1E2`) and
symbol candidates (R items capped at `1E2`, C++ definitions uncapped), score
each bucket against the term, sort both score lists with the external unstable
sort, run the bounded merge at the requested cap, and emit the filtered
buckets plus the recomputed `more_available` bit. -/
def searchCode (sortImpl : List (Nat × Int) → List (Nat × Int))
    (regexMatches : String → Bool) (p : RSourceItem → Bool)
    (filt : RSourceIndex → Bool) (cppDefs : List CppDefinition)
    (hasFileMonitor : Bool) (dbIndexes : List RSourceIndex)
    (entries : List Entry) (term : String) (maxResultsInt : Int) :
    SearchCodeResponse :=
  let maxResults := searchCodeMaxResults maxResultsInt
  let files := searchFiles regexMatches hasFileMonitor term 100 dbIndexes entries
  let names := files.1
  let paths := files.2.1
  let srcItems := collectSrcItems p filt dbIndexes entries cppDefs
  let fileScores := sortImpl (fileScoresOf names paths term)
  let srcItemScores := sortImpl (srcItemScoresOf srcItems term)
  let kept := filterScores fileScores srcItemScores maxResults
  { fileNames := kept.1.map (fun pr => names.getD pr.1 "")
    filePaths := kept.1.map (fun pr => paths.getD pr.1 "")
    srcItems := kept.2.map (fun pr => srcItems.getD pr.1 defaultSourceItem)
    keptFileScores := kept.1
    keptSrcScores := kept.2
    moreAvailable := searchCodeMoreAvailable fileScores srcItemScores maxResults }

/-! ### Entry-store lemmas -/

theorem fileInfoPathLessThan_iff {a b : FileInfo} :
    fileInfoPathLessThan a b = true ↔ a.absolutePath < b.absolutePath := by
  simp [fileInfoPathLessThan]

theorem erase_cond_iff {key : FileInfo} {x : Entry} :
    (!fileInfoPathLessThan key x.fileInfo && !fileInfoPathLessThan x.fileInfo key) = true ↔
      x.fileInfo.absolutePath = key.absolutePath := by
  simp only [fileInfoPathLessThan, Bool.and_eq_true, Bool.not_eq_true',
    decide_eq_false_iff_not]
  constructor
  · rintro ⟨h1, h2⟩
    exact le_antisymm (not_lt.mp h1) (not_lt.mp h2)
  · intro h
    constructor
    · rw [h]; exact lt_irrefl _
    · rw [h]; exact lt_irrefl _

theorem countFor_cons (p : String) (a : Entry) (l : List Entry) :
    countFor p (a :: l) = (if a.fileInfo.absolutePath == p then 1 else 0) + countFor p l := by
  simp only [countFor, List.filter_cons]
  by_cases h : (a.fileInfo.absolutePath == p) = true <;> simp [h, Nat.add_comm]

theorem countFor_eq_zero (p : String) (l : List Entry)
    (h : ∀ e ∈ l, e.fileInfo.absolutePath ≠ p) : countFor p l = 0 := by
  induction l with
  | nil => rfl
  | cons a as ih =>
    rw [countFor_cons]
    have ha : (a.fileInfo.absolutePath == p) = false :=
      beq_false_of_ne (h a (List.mem_cons_self a as))
    simp only [ha, Bool.false_eq_true, if_false, Nat.zero_add]
    exact ih (fun e he => h e (List.mem_cons_of_mem _ he))

theorem countFor_pos_of_mem {e : Entry} {l : List Entry} (h : e ∈ l) :
    0 < countFor e.fileInfo.absolutePath l := by
  induction l with
  | nil => cases h
  | cons a as ih =>
    rw [countFor_cons]
    rcases List.mem_cons.mp h with rfl | h'
    · simp only [beq_self_eq_true, if_true]
      omega
    · have := ih h'
      omega

theorem setInsert_mem (e : Entry) : ∀ (l : List Entry) (x : Entry),
    x ∈ (setInsert e l).1 → x = e ∨ x ∈ l := by
  intro l
  induction l with
  | nil => intro x hx; simp [setInsert] at hx; exact Or.inl hx
  | cons a as ih =>
    intro x hx
    simp only [setInsert] at hx
    split_ifs at hx with h1 h2
    · rcases List.mem_cons.mp hx with h | h
      · exact Or.inl h
      · exact Or.inr h
    · rcases List.mem_cons.mp hx with h | h
      · exact Or.inr (by simp [h])
      · rcases ih x h with h' | h'
        · exact Or.inl h'
        · exact Or.inr (List.mem_cons_of_mem _ h')
    · exact Or.inr hx

theorem setInsert_sorted (e : Entry) : ∀ (l : List Entry), StoreInv l →
    StoreInv (setInsert e l).1 := by
  intro l
  induction l with
  | nil => intro _; simp [setInsert, StoreInv]
  | cons a as ih =>
    intro hinv
    rcases List.pairwise_cons.mp hinv with ⟨ha, has⟩
    simp only [setInsert]
    split_ifs with h1 h2
    · refine List.pairwise_cons.mpr ⟨?_, hinv⟩
      intro y hy
      have hea : e.fileInfo.absolutePath < a.fileInfo.absolutePath :=
        fileInfoPathLessThan_iff.mp h1
      rcases List.mem_cons.mp hy with rfl | hy'
      · exact hea
      · exact lt_trans hea (ha y hy')
    · refine List.pairwise_cons.mpr ⟨?_, ih has⟩
      intro y hy
      rcases setInsert_mem e as y hy with rfl | hy'
      · exact fileInfoPathLessThan_iff.mp h2
      · exact ha y hy'
    · exact hinv

theorem setInsert_false_iff (e : Entry) : ∀ (l : List Entry), StoreInv l →
    ((setInsert e l).2 = false ↔ 0 < countFor e.fileInfo.absolutePath l) := by
  intro l
  induction l with
  | nil => intro _; simp [setInsert, countFor]
  | cons a as ih =>
    intro hinv
    rcases List.pairwise_cons.mp hinv with ⟨ha, has⟩
    simp only [setInsert]
    split_ifs with h1 h2
    · have hzero : countFor e.fileInfo.absolutePath (a :: as) = 0 := by
        apply countFor_eq_zero
        intro y hy
        have hea : e.fileInfo.absolutePath < a.fileInfo.absolutePath :=
          fileInfoPathLessThan_iff.mp h1
        rcases List.mem_cons.mp hy with rfl | hy'
        · exact ne_of_gt hea
        · exact ne_of_gt (lt_trans hea (ha y hy'))
      rw [hzero]
      simp
    · have hae : a.fileInfo.absolutePath < e.fileInfo.absolutePath :=
        fileInfoPathLessThan_iff.mp h2
      rw [countFor_cons, beq_false_of_ne (ne_of_lt hae)]
      simpa using ih has
    · have heq : a.fileInfo.absolutePath = e.fileInfo.absolutePath := by
        apply erase_cond_iff.mp
        simp only [Bool.and_eq_true, Bool.not_eq_true']
        constructor
        · cases hv : fileInfoPathLessThan e.fileInfo a.fileInfo
          · rfl
          · exact absurd hv h1
        · cases hv : fileInfoPathLessThan a.fileInfo e.fileInfo
          · rfl
          · exact absurd hv h2
      rw [countFor_cons]
      simp [heq]

theorem setInsert_self_mem (e : Entry) : ∀ (l : List Entry),
    (setInsert e l).2 = true → e ∈ (setInsert e l).1 := by
  intro l
  induction l with
  | nil => intro _; simp [setInsert]
  | cons a as ih =>
    intro h2
    simp only [setInsert] at h2 ⊢
    split_ifs with hc1 hc2
    · simp
    · simp only [List.mem_cons]
      right
      apply ih
      simpa [setInsert, hc1, hc2] using h2
    · simp [setInsert, hc1, hc2] at h2

theorem setErase_sublist (key : FileInfo) : ∀ (l : List Entry),
    (setErase key l).Sublist l := by
  intro l
  induction l with
  | nil => simp [setErase]
  | cons a as ih =>
    simp only [setErase]
    split_ifs with h1
    · exact List.sublist_cons_self a as
    · exact List.Sublist.cons₂ a ih

theorem setErase_inv (key : FileInfo) (l : List Entry) (h : StoreInv l) :
    StoreInv (setErase key l) :=
  List.Pairwise.sublist (setErase_sublist key l) h

theorem countFor_setErase_self (key : FileInfo) : ∀ (l : List Entry), StoreInv l →
    countFor key.absolutePath (setErase key l) = 0 := by
  intro l
  induction l with
  | nil => intro _; rfl
  | cons a as ih =>
    intro hinv
    rcases List.pairwise_cons.mp hinv with ⟨ha, has⟩
    simp only [setErase]
    split_ifs with h1
    · have heq := erase_cond_iff.mp h1
      apply countFor_eq_zero
      intro y hy
      have := ha y hy
      rw [heq] at this
      exact ne_of_gt this
    · have hne : a.fileInfo.absolutePath ≠ key.absolutePath := by
        intro heq
        exact h1 (erase_cond_iff.mpr heq)
      rw [countFor_cons, beq_false_of_ne hne]
      simpa using ih has

theorem countFor_le_one (p : String) : ∀ (l : List Entry), StoreInv l →
    countFor p l ≤ 1 := by
  intro l
  induction l with
  | nil => intro _; simp [countFor]
  | cons a as ih =>
    intro hinv
    rcases List.pairwise_cons.mp hinv with ⟨ha, has⟩
    rw [countFor_cons]
    by_cases hb : (a.fileInfo.absolutePath == p) = true
    · have hap : a.fileInfo.absolutePath = p := by simpa using hb
      have hzero : countFor p as = 0 := by
        apply countFor_eq_zero
        intro e he
        have := ha e he
        rw [hap] at this
        exact ne_of_gt this
      simp [hb, hzero]
    · have := ih has
      simp only [hb, Bool.false_eq_true, if_false]
      omega

theorem countFor_setInsert_other (e : Entry) (p : String)
    (hp : p ≠ e.fileInfo.absolutePath) : ∀ (l : List Entry),
    countFor p (setInsert e l).1 = countFor p l := by
  have hbe : (e.fileInfo.absolutePath == p) = false :=
    beq_false_of_ne (fun h => hp h.symm)
  intro l
  induction l with
  | nil =>
    simp only [setInsert]
    rw [countFor_cons, hbe]
    simp [countFor]
  | cons a as ih =>
    simp only [setInsert]
    split_ifs with h1 h2
    · rw [countFor_cons, hbe]
      simp
    · rw [countFor_cons, countFor_cons, ih]
    · rfl

theorem countFor_setErase_other (key : FileInfo) (p : String)
    (hp : p ≠ key.absolutePath) : ∀ (l : List Entry),
    countFor p (setErase key l) = countFor p l := by
  intro l
  induction l with
  | nil => simp [setErase]
  | cons a as ih =>
    simp only [setErase]
    split_ifs with h1
    · have heq := erase_cond_iff.mp h1
      rw [countFor_cons]
      have : (a.fileInfo.absolutePath == p) = false := by
        apply beq_false_of_ne
        rw [heq]
        exact fun h => hp h.symm
      rw [this]
      simp
    · rw [countFor_cons, countFor_cons, ih]

theorem insertEntry_inv (l : List Entry) (e : Entry) (h : StoreInv l) :
    StoreInv (insertEntry l e) := by
  unfold insertEntry
  split_ifs
  · exact setInsert_sorted e l h
  · exact setInsert_sorted e _ (setErase_inv e.fileInfo l h)

theorem insertEntry_self_mem (l : List Entry) (e : Entry) (h : StoreInv l) :
    e ∈ insertEntry l e := by
  unfold insertEntry
  split_ifs with hins
  · exact setInsert_self_mem e l hins
  · apply setInsert_self_mem
    have hinv2 := setErase_inv e.fileInfo l h
    have hzero := countFor_setErase_self e.fileInfo l h
    cases hval : (setInsert e (setErase e.fileInfo l)).2
    · have := (setInsert_false_iff e _ hinv2).mp hval
      rw [hzero] at this
      exact absurd this (lt_irrefl 0)
    · rfl

theorem countFor_insertEntry_self (l : List Entry) (e : Entry) (h : StoreInv l) :
    countFor e.fileInfo.absolutePath (insertEntry l e) = 1 := by
  have hle := countFor_le_one e.fileInfo.absolutePath (insertEntry l e) (insertEntry_inv l e h)
  have hpos := countFor_pos_of_mem (insertEntry_self_mem l e h)
  omega

theorem countFor_insertEntry_other (l : List Entry) (e : Entry) (p : String)
    (hp : p ≠ e.fileInfo.absolutePath) :
    countFor p (insertEntry l e) = countFor p l := by
  unfold insertEntry
  split_ifs
  · exact countFor_setInsert_other e p hp l
  · rw [countFor_setInsert_other e p hp, countFor_setErase_other e.fileInfo p hp]

theorem updateIndexEntry_inv (read : FileInfo → ReadResult)
    (extractSymbols : String → String → List RSourceItem)
    (l : List Entry) (f : FileInfo) (h : StoreInv l) :
    StoreInv (updateIndexEntry read extractSymbols l f).1 := by
  unfold updateIndexEntry
  split_ifs with hidx
  · cases hread : read f with
    | ok code => simp only [hread]; exact insertEntry_inv _ _ h
    | notFound => simp only [hread]; exact h
    | decodeError => simp only [hread]; exact h
  · exact insertEntry_inv _ _ h

theorem countFor_updateIndexEntry_other (read : FileInfo → ReadResult)
    (extractSymbols : String → String → List RSourceItem)
    (l : List Entry) (f : FileInfo) (p : String) (hp : p ≠ f.absolutePath) :
    countFor p (updateIndexEntry read extractSymbols l f).1 = countFor p l := by
  unfold updateIndexEntry
  split_ifs with hidx
  · cases hread : read f with
    | ok code => simp only [hread]; exact countFor_insertEntry_other _ _ _ hp
    | notFound => simp only [hread]
    | decodeError => simp only [hread]
  · exact countFor_insertEntry_other _ _ _ hp

theorem removeIndexEntry_inv (l : List Entry) (f : FileInfo) (h : StoreInv l) :
    StoreInv (removeIndexEntry l f) :=
  setErase_inv f l h

theorem countFor_removeIndexEntry_other (l : List Entry) (f : FileInfo) (p : String)
    (hp : p ≠ f.absolutePath) :
    countFor p (removeIndexEntry l f) = countFor p l :=
  countFor_setErase_other f p hp l

theorem countFor_removeIndexEntry_self (l : List Entry) (f : FileInfo) (h : StoreInv l) :
    countFor f.absolutePath (removeIndexEntry l f) = 0 :=
  countFor_setErase_self f l h

theorem updateIndexEntry_success (read : FileInfo → ReadResult)
    (extractSymbols : String → String → List RSourceItem)
    (l : List Entry) (f : FileInfo)
    (h : isIndexableSourceFile f = false ∨ ∃ code, read f = ReadResult.ok code) :
    ∃ e : Entry, e.fileInfo = f ∧
      (updateIndexEntry read extractSymbols l f).1 = insertEntry l e := by
  unfold updateIndexEntry
  cases hidx : isIndexableSourceFile f with
  | false =>
    simp only [hidx, Bool.false_eq_true, if_false]
    exact ⟨⟨f, none⟩, rfl, rfl⟩
  | true =>
    rcases h with h | ⟨code, hread⟩
    · rw [hidx] at h; cases h
    · simp only [hidx, if_true, hread]
      refine ⟨⟨f, some ⟨createAliasedPath f.absolutePath,
        extractSymbols (createAliasedPath f.absolutePath) code⟩⟩, rfl, rfl⟩

theorem processEvent_inv (read : FileInfo → ReadResult)
    (extractSymbols : String → String → List RSourceItem)
    (l : List Entry) (ev : FileChangeEvent) (h : StoreInv l) :
    StoreInv (processEvent read extractSymbols l ev) := by
  unfold processEvent
  cases ev.type
  · exact updateIndexEntry_inv read extractSymbols l ev.fileInfo h
  · exact updateIndexEntry_inv read extractSymbols l ev.fileInfo h
  · exact removeIndexEntry_inv l ev.fileInfo h
  · exact h

theorem countFor_processEvent_other (read : FileInfo → ReadResult)
    (extractSymbols : String → String → List RSourceItem)
    (l : List Entry) (ev : FileChangeEvent) (p : String)
    (hp : p ≠ ev.fileInfo.absolutePath) :
    countFor p (processEvent read extractSymbols l ev) = countFor p l := by
  unfold processEvent
  cases ev.type
  · exact countFor_updateIndexEntry_other read extractSymbols l ev.fileInfo p hp
  · exact countFor_updateIndexEntry_other read extractSymbols l ev.fileInfo p hp
  · exact countFor_removeIndexEntry_other l ev.fileInfo p hp
  · rfl

theorem dequeAndIndex_inv (read : FileInfo → ReadResult)
    (extractSymbols : String → String → List RSourceItem)
    (st : IndexState) (h : StoreInv st.entries) :
    StoreInv (dequeAndIndex read extractSymbols st).1.entries := by
  unfold dequeAndIndex
  cases hq : st.indexingQueue with
  | nil => exact h
  | cons ev rest => exact processEvent_inv read extractSymbols st.entries ev h

theorem drain_countFor_no_events (read : FileInfo → ReadResult)
    (extractSymbols : String → String → List RSourceItem) (p : String) :
    ∀ (fuel : Nat) (st : IndexState), StoreInv st.entries →
    st.indexingQueue.filter (fun ev => ev.fileInfo.absolutePath == p) = [] →
    countFor p (drain read extractSymbols fuel st).entries = countFor p st.entries := by
  intro fuel
  induction fuel with
  | zero => intro st _ _; rfl
  | succ n ih =>
    intro st hinv hfil
    show countFor p (drain read extractSymbols n (dequeAndIndex read extractSymbols st).1).entries
        = countFor p st.entries
    cases hq : st.indexingQueue with
    | nil =>
      have hstep : (dequeAndIndex read extractSymbols st).1 = { st with indexing := false } := by
        unfold dequeAndIndex
        rw [hq]
      rw [hstep]
      rw [ih { st with indexing := false } hinv (by simp [hq])]
    | cons ev rest =>
      rw [hq, List.filter_cons] at hfil
      by_cases hev : (ev.fileInfo.absolutePath == p) = true
      · simp [hev] at hfil
      · simp only [hev, Bool.false_eq_true, if_false] at hfil
        have hne : p ≠ ev.fileInfo.absolutePath := by
          intro heq
          exact hev (by simp [heq])
        have hstep : (dequeAndIndex read extractSymbols st).1 =
            { entries := processEvent read extractSymbols st.entries ev,
              indexing := !rest.isEmpty, indexingQueue := rest } := by
          unfold dequeAndIndex
          rw [hq]
        rw [hstep]
        rw [ih _ (processEvent_inv read extractSymbols st.entries ev hinv) (by simpa using hfil)]
        exact countFor_processEvent_other read extractSymbols st.entries ev p hne

theorem drain_countFor_removed_last (read : FileInfo → ReadResult)
    (extractSymbols : String → String → List RSourceItem) (p : String) :
    ∀ (fuel : Nat) (st : IndexState),
    st.indexingQueue.length ≤ fuel →
    StoreInv st.entries →
    (∃ ev : FileChangeEvent, ev.type = FileEventType.FileRemoved ∧
      (st.indexingQueue.filter (fun e => e.fileInfo.absolutePath == p)).getLast? = some ev) →
    countFor p (drain read extractSymbols fuel st).entries = 0 := by
  intro fuel
  induction fuel with
  | zero =>
    intro st hlen _ hlast
    have hq : st.indexingQueue = [] := List.length_eq_zero.mp (Nat.le_zero.mp hlen)
    rcases hlast with ⟨ev, _, hsome⟩
    rw [hq] at hsome
    cases hsome
  | succ n ih =>
    intro st hlen hinv hlast
    show countFor p (drain read extractSymbols n (dequeAndIndex read extractSymbols st).1).entries = 0
    cases hq : st.indexingQueue with
    | nil =>
      rcases hlast with ⟨ev, _, hsome⟩
      rw [hq] at hsome
      cases hsome
    | cons ev rest =>
      have hstep : (dequeAndIndex read extractSymbols st).1 =
          { entries := processEvent read extractSymbols st.entries ev,
            indexing := !rest.isEmpty, indexingQueue := rest } := by
        unfold dequeAndIndex
        rw [hq]
      have hlen2 : rest.length ≤ n := by
        rw [hq] at hlen
        simpa using hlen
      have hinv2 : StoreInv (processEvent read extractSymbols st.entries ev) :=
        processEvent_inv read extractSymbols st.entries ev hinv
      rcases hlast with ⟨lastEv, hty, hsome⟩
      rw [hq, List.filter_cons] at hsome
      by_cases hev : (ev.fileInfo.absolutePath == p) = true
      · simp only [hev, if_true] at hsome
        cases hrest : rest.filter (fun e => e.fileInfo.absolutePath == p) with
        | nil =>
          rw [hrest] at hsome
          have hevlast : ev = lastEv := by
            simpa using hsome
          have hremoved : ev.type = FileEventType.FileRemoved := by
            rw [hevlast]; exact hty
          have hpe : p = ev.fileInfo.absolutePath := by
            have := hev
            simp at this
            exact this.symm
          have hzero : countFor p (processEvent read extractSymbols st.entries ev) = 0 := by
            unfold processEvent
            rw [hremoved]
            rw [hpe]
            exact countFor_removeIndexEntry_self st.entries ev.fileInfo hinv
          rw [hstep]
          rw [drain_countFor_no_events read extractSymbols p n _ hinv2 (by simpa using hrest)]
          exact hzero
        | cons b bs =>
          rw [hrest] at hsome
          have hsome2 : (rest.filter (fun e => e.fileInfo.absolutePath == p)).getLast?
              = some lastEv := by
            rw [hrest]
            rw [List.getLast?_cons_cons] at hsome
            exact hsome
          rw [hstep]
          exact ih _ hlen2 hinv2 ⟨lastEv, hty, hsome2⟩
      · simp only [hev, Bool.false_eq_true, if_false] at hsome
        rw [hstep]
        exact ih _ hlen2 hinv2 ⟨lastEv, hty, hsome⟩

/-! ### Claims C3, C4, C5 -/

/-- C3, counterexample: with an empty store, processing an Added event for the
indexable file `a.r` whose read fails with a decode error logs the failure but
leaves no Entry Store entry for the file, refuting the claim that the file
"is still kept in the Entry Store as an entry with no symbol data". -/
theorem updateIndexEntry_decode_failure_counterexample :
    (updateIndexEntry (fun _ => ReadResult.decodeError) (fun _ _ => [])
      [] ⟨"a.r", false⟩).2 = true ∧
    hasEntryFor "a.r" (updateIndexEntry (fun _ => ReadResult.decodeError) (fun _ _ => [])
      [] ⟨"a.r", false⟩).1 = false := by
  decide

/-- C3, amended: when an Added or Modified event is processed for an indexable
file and reading/decoding fails, a decode failure is logged and a
file-not-found failure is silently ignored, and in both cases the update is
abandoned — the store is left exactly as it was (no symbol-less entry is
added, an existing entry survives unchanged); the indexing step itself does
not fail: it still pops the event and reports the remaining work as usual. -/
theorem updateIndexEntry_read_failure_behavior (read : FileInfo → ReadResult)
    (extractSymbols : String → String → List RSourceItem)
    (entries : List Entry) (f : FileInfo)
    (hIdx : isIndexableSourceFile f = true) :
    (read f = ReadResult.notFound →
      updateIndexEntry read extractSymbols entries f = (entries, false)) ∧
    (read f = ReadResult.decodeError →
      updateIndexEntry read extractSymbols entries f = (entries, true)) ∧
    (∀ (st : IndexState) (ev : FileChangeEvent) (rest : List FileChangeEvent),
      st.indexingQueue = ev :: rest →
      (dequeAndIndex read extractSymbols st).1.indexingQueue = rest ∧
      (dequeAndIndex read extractSymbols st).2 = !rest.isEmpty) := by
  refine ⟨?_, ?_, ?_⟩
  · intro hread
    unfold updateIndexEntry
    rw [hIdx, hread]
    simp
  · intro hread
    unfold updateIndexEntry
    rw [hIdx, hread]
    simp
  · intro st ev rest hq
    unfold dequeAndIndex
    rw [hq]
    exact ⟨rfl, rfl⟩

/-- C3, witness for the amended theorem at a concrete indexable file. -/
theorem updateIndexEntry_read_failure_behavior_witness :
    updateIndexEntry (fun _ => ReadResult.notFound) (fun _ _ => []) [] ⟨"a.r", false⟩
      = ([], false) :=
  (updateIndexEntry_read_failure_behavior (fun _ => ReadResult.notFound) (fun _ _ => [])
    [] ⟨"a.r", false⟩ (by decide)).1 rfl

/-- C4, counterexample: for the indexable file `a.r` whose read fails with
path-not-found, processing the same Added event twice in a row from an empty
store leaves zero Entry Store entries for the file, not exactly one. -/
theorem entryStore_double_add_counterexample :
    countFor "a.r" (drain (fun _ => ReadResult.notFound) (fun _ _ => []) 2
      ⟨[], true, [⟨FileEventType.FileAdded, ⟨"a.r", false⟩⟩,
                  ⟨FileEventType.FileAdded, ⟨"a.r", false⟩⟩]⟩).entries = 0 := by
  decide

/-- C4, amended: the Entry Store holds at most one entry per file identity,
and this invariant is preserved by `updateIndexEntry`, `removeIndexEntry` and
`clear`; processing the same Added event for a file twice in a row with no
intervening Removed leaves exactly one entry for that file provided the
update succeeds (the file is not subject to symbol extraction, or its read
succeeds) — on a read failure the two updates are abandoned and the entry
count for the file stays whatever it was (zero from an empty store). -/
theorem entryStore_unique_invariant (read : FileInfo → ReadResult)
    (extractSymbols : String → String → List RSourceItem)
    (entries : List Entry) (f : FileInfo) (st : IndexState)
    (hInv : StoreInv entries) :
    StoreInv (updateIndexEntry read extractSymbols entries f).1 ∧
    StoreInv (removeIndexEntry entries f) ∧
    StoreInv (clearIndex st).entries ∧
    (∀ p, countFor p (updateIndexEntry read extractSymbols entries f).1 ≤ 1) ∧
    ((isIndexableSourceFile f = false ∨ ∃ code, read f = ReadResult.ok code) →
      countFor f.absolutePath (drain read extractSymbols 2
        ⟨entries, true, [⟨FileEventType.FileAdded, f⟩,
                         ⟨FileEventType.FileAdded, f⟩]⟩).entries = 1) := by
  refine ⟨updateIndexEntry_inv read extractSymbols entries f hInv,
    removeIndexEntry_inv entries f hInv,
    List.Pairwise.nil,
    ?_, ?_⟩
  · intro p
    exact countFor_le_one p _ (updateIndexEntry_inv read extractSymbols entries f hInv)
  · intro hok
    have h1 : StoreInv (updateIndexEntry read extractSymbols entries f).1 :=
      updateIndexEntry_inv read extractSymbols entries f hInv
    rcases updateIndexEntry_success read extractSymbols
      (updateIndexEntry read extractSymbols entries f).1 f hok with ⟨e, hef, heq⟩
    show countFor f.absolutePath
      (drain read extractSymbols 0 (dequeAndIndex read extractSymbols
        (dequeAndIndex read extractSymbols
          ⟨entries, true, [⟨FileEventType.FileAdded, f⟩, ⟨FileEventType.FileAdded, f⟩]⟩).1).1).entries = 1
    unfold dequeAndIndex
    simp only [processEvent, drain]
    rw [heq]
    have := countFor_insertEntry_self (updateIndexEntry read extractSymbols entries f).1 e h1
    rw [hef] at this
    exact this

/-- C4, witness for the amended theorem: a concrete successful double-Added
run ends with exactly one entry. -/
theorem entryStore_unique_invariant_witness :
    countFor "a.r" (drain (fun _ => ReadResult.ok "x <- 1") (fun _ _ => []) 2
      ⟨[], true, [⟨FileEventType.FileAdded, ⟨"a.r", false⟩⟩,
                  ⟨FileEventType.FileAdded, ⟨"a.r", false⟩⟩]⟩).entries = 1 :=
  (entryStore_unique_invariant (fun _ => ReadResult.ok "x <- 1") (fun _ _ => [])
    [] ⟨"a.r", false⟩ ⟨[], false, []⟩ List.Pairwise.nil).2.2.2.2
    (Or.inr ⟨"x <- 1", rfl⟩)

/-- C5: if the sub-sequence of queued events touching file `f` is exactly
Added, Modified, Removed (in that FIFO order), then however many background
steps it takes to drain the queue, the final Entry Store has no entry for
`f`. -/
theorem drain_added_modified_removed (read : FileInfo → ReadResult)
    (extractSymbols : String → String → List RSourceItem)
    (st : IndexState) (f : FileInfo) (fuel : Nat)
    (hInv : StoreInv st.entries)
    (hq : st.indexingQueue.filter (fun ev => ev.fileInfo.absolutePath == f.absolutePath)
        = [⟨FileEventType.FileAdded, f⟩, ⟨FileEventType.FileModified, f⟩,
           ⟨FileEventType.FileRemoved, f⟩])
    (hfuel : st.indexingQueue.length ≤ fuel) :
    countFor f.absolutePath (drain read extractSymbols fuel st).entries = 0 := by
  apply drain_countFor_removed_last read extractSymbols f.absolutePath fuel st hfuel hInv
  refine ⟨⟨FileEventType.FileRemoved, f⟩, rfl, ?_⟩
  rw [hq]
  rfl

/-- C5, witness: a concrete Added/Modified/Removed queue drained in three
steps leaves no entry for the file. -/
theorem drain_added_modified_removed_witness :
    countFor "a.r" (drain (fun _ => ReadResult.ok "x <- 1") (fun _ _ => []) 3
      ⟨[], true, [⟨FileEventType.FileAdded, ⟨"a.r", false⟩⟩,
                  ⟨FileEventType.FileModified, ⟨"a.r", false⟩⟩,
                  ⟨FileEventType.FileRemoved, ⟨"a.r", false⟩⟩]⟩).entries = 0 :=
  drain_added_modified_removed (fun _ => ReadResult.ok "x <- 1") (fun _ _ => [])
    ⟨[], true, [⟨FileEventType.FileAdded, ⟨"a.r", false⟩⟩,
                ⟨FileEventType.FileModified, ⟨"a.r", false⟩⟩,
                ⟨FileEventType.FileRemoved, ⟨"a.r", false⟩⟩]⟩
    ⟨"a.r", false⟩ 3 List.Pairwise.nil (by decide) (by decide)

/-! ### Claim C1 -/

theorem pushItemsCapped_mem (maxResults : Nat) :
    ∀ (toPush items : List RSourceItem) (x : RSourceItem),
    x ∈ (pushItemsCapped maxResults items toPush).1 → x ∈ items ∨ x ∈ toPush := by
  intro toPush
  induction toPush with
  | nil => intro items x hx; exact Or.inl hx
  | cons a as ih =>
    intro items x hx
    simp only [pushItemsCapped] at hx
    split_ifs at hx with h1
    · have := List.take_subset maxResults (items ++ [a]) hx
      rcases List.mem_append.mp this with h | h
      · exact Or.inl h
      · have hxa : x = a := by simpa using h
        exact Or.inr (by simp [hxa])
    · rcases ih (items ++ [a]) x hx with h | h
      · rcases List.mem_append.mp h with h' | h'
        · exact Or.inl h'
        · have hxa : x = a := by simpa using h'
          exact Or.inr (by simp [hxa])
      · exact Or.inr (List.mem_cons_of_mem _ h)

theorem searchProjectSource_mem (p : RSourceItem → Bool) (maxResults : Nat)
    (excludeContexts : List String) :
    ∀ (entries : List Entry) (acc : List RSourceItem) (x : RSourceItem),
    x ∈ searchProjectSource p maxResults excludeContexts entries acc →
    x ∈ acc ∨ ∃ e ∈ entries, ∃ idx : RSourceIndex, e.pIndex = some idx ∧
      excludeContexts.contains idx.context = false ∧ x ∈ idx.items.filter p := by
  intro entries
  induction entries with
  | nil => intro acc x hx; exact Or.inl hx
  | cons e rest ih =>
    intro acc x hx
    cases hidx : e.pIndex with
    | none =>
      simp only [searchProjectSource, hidx] at hx
      rcases ih acc x hx with h | ⟨e', he', r⟩
      · exact Or.inl h
      · exact Or.inr ⟨e', List.mem_cons_of_mem _ he', r⟩
    | some idx =>
      simp only [searchProjectSource, hidx] at hx
      split_ifs at hx with hexc hcap
      · rcases ih acc x hx with h | ⟨e', he', r⟩
        · exact Or.inl h
        · exact Or.inr ⟨e', List.mem_cons_of_mem _ he', r⟩
      · have hmem := List.take_subset maxResults _ hx
        rcases List.mem_append.mp hmem with h | h
        · exact Or.inl h
        · refine Or.inr ⟨e, List.mem_cons_self e rest, idx, hidx, ?_, h⟩
          cases hc : excludeContexts.contains idx.context
          · rfl
          · exact absurd hc (by simpa using hexc)
      · rcases ih (acc ++ idx.search p) x hx with h | ⟨e', he', r⟩
        · rcases List.mem_append.mp h with h' | h'
          · exact Or.inl h'
          · refine Or.inr ⟨e, List.mem_cons_self e rest, idx, hidx, ?_, h'⟩
            cases hc : excludeContexts.contains idx.context
            · rfl
            · exact absurd hc (by simpa using hexc)
        · exact Or.inr ⟨e', List.mem_cons_of_mem _ he', r⟩

/-- C1: in the merged symbol search, the Entry Store pass skips every entry
whose context was recorded during the live-document (source-database) pass,
and consequently every merged result whose context is among the recorded
contexts comes from the live-document pass — a file indexed in both places
contributes its symbols exactly once, with the live-document version
winning. -/
theorem searchSource_live_context_dedup (p : RSourceItem → Bool)
    (filt : RSourceIndex → Bool) (maxResults : Nat)
    (dbIndexes : List RSourceIndex) (entries : List Entry)
    (hwf : ∀ e ∈ entries, EntryWF e) :
    (∀ it ∈ searchProjectSource p
        (maxResults - (searchSourceDatabase p filt maxResults dbIndexes [] []).1.length)
        (searchSourceDatabase p filt maxResults dbIndexes [] []).2 entries [],
      it.context ∉ (searchSourceDatabase p filt maxResults dbIndexes [] []).2) ∧
    (∀ it ∈ (searchSource p filt maxResults dbIndexes entries).1,
      it.context ∈ (searchSourceDatabase p filt maxResults dbIndexes [] []).2 →
      it ∈ (searchSourceDatabase p filt maxResults dbIndexes [] []).1) := by
  have hproj : ∀ (cap : Nat),
      ∀ it ∈ searchProjectSource p cap
        (searchSourceDatabase p filt maxResults dbIndexes [] []).2 entries [],
      it.context ∉ (searchSourceDatabase p filt maxResults dbIndexes [] []).2 := by
    intro cap it hit hctx
    rcases searchProjectSource_mem p cap _ entries [] it hit with h | ⟨e, he, idx, hidx, hcon, hfil⟩
    · cases h
    · have hwfe := hwf e he idx (by simp [hidx]) it (List.mem_of_mem_filter hfil)
      rw [hwfe] at hctx
      have : (searchSourceDatabase p filt maxResults dbIndexes [] []).2.contains idx.context
          = true := by
        simpa using hctx
      rw [hcon] at this
      cases this
  refine ⟨hproj _, ?_⟩
  intro it hit hctx
  simp only [searchSource] at hit
  split_ifs at hit with hcap
  · exact List.take_subset _ _ hit
  · rcases pushItemsCapped_mem maxResults _ _ it hit with h | h
    · exact h
    · exact absurd hctx (hproj _ it h)

/-- C1, witness: with the same file open as a live document (context `ctx`)
and indexed on disk, the live item is returned by the merged search and, its
context being recorded, the theorem places it in the live-document pass. -/
theorem searchSource_live_context_dedup_witness :
    (⟨RSourceItemType.Function, "run", [], "ctx", 1, 1⟩ : RSourceItem) ∈
      (searchSourceDatabase (fun _ => true) (fun _ => true) 10
        [⟨"ctx", [⟨RSourceItemType.Function, "run", [], "ctx", 1, 1⟩]⟩] [] []).1 :=
  (searchSource_live_context_dedup (fun _ => true) (fun _ => true) 10
      [⟨"ctx", [⟨RSourceItemType.Function, "run", [], "ctx", 1, 1⟩]⟩]
      [⟨⟨"ctx", false⟩, some ⟨"ctx", [⟨RSourceItemType.Function, "run", [], "ctx", 2, 1⟩]⟩⟩]
      (by decide)).2
    ⟨RSourceItemType.Function, "run", [], "ctx", 1, 1⟩ (by decide) (by decide)

/-! ### Claim C2 -/

theorem filterScoresLoop_counts (s1 s2 : List (Nat × Int)) :
    ∀ (fuel c1 c2 : Nat), c1 ≤ s1.length → c2 ≤ s2.length →
    c1 ≤ (filterScoresLoop s1 s2 fuel c1 c2).1 ∧
    c2 ≤ (filterScoresLoop s1 s2 fuel c1 c2).2 ∧
    (filterScoresLoop s1 s2 fuel c1 c2).1 ≤ s1.length ∧
    (filterScoresLoop s1 s2 fuel c1 c2).2 ≤ s2.length ∧
    (filterScoresLoop s1 s2 fuel c1 c2).1 + (filterScoresLoop s1 s2 fuel c1 c2).2
      = min (c1 + c2 + fuel) (s1.length + s2.length) := by
  intro fuel
  induction fuel with
  | zero =>
    intro c1 c2 h1 h2
    simp only [filterScoresLoop]
    refine ⟨le_refl _, le_refl _, h1, h2, ?_⟩
    omega
  | succ n ih =>
    intro c1 c2 h1 h2
    simp only [filterScoresLoop]
    split_ifs with hA hB hC hD hE
    · obtain ⟨a1, a2, a3, a4, a5⟩ := ih c1 (c2 + 1) h1 hB
      exact ⟨a1, le_trans (Nat.le_succ c2) a2, a3, a4, by omega⟩
    · have hc2' : c2 = s2.length := le_antisymm h2 (not_lt.mp hB)
      obtain ⟨a1, a2, a3, a4, a5⟩ := ih c1 c2 h1 h2
      exact ⟨a1, a2, a3, a4, by omega⟩
    · obtain ⟨a1, a2, a3, a4, a5⟩ := ih (c1 + 1) c2 hD h2
      exact ⟨le_trans (Nat.le_succ c1) a1, a2, a3, a4, by omega⟩
    · exact absurd (lt_of_le_of_ne h1 hA) hD
    · obtain ⟨a1, a2, a3, a4, a5⟩ := ih (c1 + 1) c2 (lt_of_le_of_ne h1 hA) h2
      exact ⟨le_trans (Nat.le_succ c1) a1, a2, a3, a4, by omega⟩
    · obtain ⟨a1, a2, a3, a4, a5⟩ := ih c1 (c2 + 1) h1 (lt_of_le_of_ne h2 hC)
      exact ⟨a1, le_trans (Nat.le_succ c2) a2, a3, a4, by omega⟩

theorem filterScoresLoop_order (s1 s2 : List (Nat × Int))
    (hs1 : ∀ i j, i ≤ j → j < s1.length → scoreAt s1 i ≤ scoreAt s1 j)
    (hs2 : ∀ i j, i ≤ j → j < s2.length → scoreAt s2 i ≤ scoreAt s2 j) :
    ∀ (fuel c1 c2 : Nat), c1 ≤ s1.length → c2 ≤ s2.length →
    (∀ i, c1 ≤ i → i < (filterScoresLoop s1 s2 fuel c1 c2).1 →
      ∀ j, (filterScoresLoop s1 s2 fuel c1 c2).2 ≤ j → j < s2.length →
        scoreAt s1 i ≤ scoreAt s2 j) ∧
    (∀ j, c2 ≤ j → j < (filterScoresLoop s1 s2 fuel c1 c2).2 →
      ∀ i, (filterScoresLoop s1 s2 fuel c1 c2).1 ≤ i → i < s1.length →
        scoreAt s2 j ≤ scoreAt s1 i) := by
  intro fuel
  induction fuel with
  | zero =>
    intro c1 c2 _ _
    simp only [filterScoresLoop]
    exact ⟨fun i hi1 hi2 => absurd (lt_of_le_of_lt hi1 hi2) (lt_irrefl c1),
           fun j hj1 hj2 => absurd (lt_of_le_of_lt hj1 hj2) (lt_irrefl c2)⟩
  | succ n ih =>
    intro c1 c2 h1 h2
    simp only [filterScoresLoop]
    split_ifs with hA hB hC hD hE
    · obtain ⟨ih1, ih2⟩ := ih c1 (c2 + 1) h1 hB
      obtain ⟨a1, _, a3, _, _⟩ := filterScoresLoop_counts s1 s2 n c1 (c2 + 1) h1 hB
      have hr1 : (filterScoresLoop s1 s2 n c1 (c2 + 1)).1 = c1 := by omega
      refine ⟨?_, ?_⟩
      · intro i hi1 hi2
        rw [hr1] at hi2
        exact absurd (lt_of_le_of_lt hi1 hi2) (lt_irrefl c1)
      · intro j hj1 hj2 i hi1 hi2
        rcases Nat.lt_or_ge j (c2 + 1) with hj | hj
        · rw [hr1, hA] at hi1
          exact absurd (lt_of_le_of_lt hi1 hi2) (lt_irrefl _)
        · exact ih2 j hj hj2 i hi1 hi2
    · exact ih c1 c2 h1 h2
    · obtain ⟨ih1, ih2⟩ := ih (c1 + 1) c2 hD h2
      obtain ⟨_, b2, _, b4, _⟩ := filterScoresLoop_counts s1 s2 n (c1 + 1) c2 hD h2
      have hr2 : (filterScoresLoop s1 s2 n (c1 + 1) c2).2 = c2 := by omega
      refine ⟨?_, ?_⟩
      · intro i hi1 hi2 j hj1 hj2
        rw [hr2, hC] at hj1
        exact absurd (lt_of_le_of_lt hj1 hj2) (lt_irrefl _)
      · intro j hj1 hj2 i hi1 hi2
        rw [hr2] at hj2
        exact absurd (lt_of_le_of_lt hj1 hj2) (lt_irrefl _)
    · exact absurd (lt_of_le_of_ne h1 hA) hD
    · obtain ⟨ih1, ih2⟩ := ih (c1 + 1) c2 (lt_of_le_of_ne h1 hA) h2
      obtain ⟨_, b2, _, _, _⟩ :=
        filterScoresLoop_counts s1 s2 n (c1 + 1) c2 (lt_of_le_of_ne h1 hA) h2
      refine ⟨?_, ih2⟩
      intro i hi1 hi2 j hj1 hj2
      rcases Nat.lt_or_ge i (c1 + 1) with hi | hi
      · have hieq : i = c1 := by omega
        rw [hieq]
        refine le_trans hE (hs2 c2 j ?_ hj2)
        omega
      · exact ih1 i hi hi2 j hj1 hj2
    · obtain ⟨ih1, ih2⟩ := ih c1 (c2 + 1) h1 (lt_of_le_of_ne h2 hC)
      obtain ⟨a1, _, _, _, _⟩ :=
        filterScoresLoop_counts s1 s2 n c1 (c2 + 1) h1 (lt_of_le_of_ne h2 hC)
      refine ⟨ih1, ?_⟩
      intro j hj1 hj2 i hi1 hi2
      rcases Nat.lt_or_ge j (c2 + 1) with hj | hj
      · have hjeq : j = c2 := by omega
        rw [hjeq]
        refine le_trans (le_of_lt (not_le.mp hE)) (hs1 c1 i ?_ hi2)
        omega
      · exact ih2 j hj hj2 i hi1 hi2

theorem scoreAt_eq_getElem (l : List (Nat × Int)) {i : Nat} (h : i < l.length) :
    scoreAt l i = l[i].2 := by
  unfold scoreAt
  rw [List.getD_eq_getElem l (0, 0) h]

theorem sorted_scoreAt {l : List (Nat × Int)}
    (h : l.Pairwise (fun a b => a.2 ≤ b.2)) :
    ∀ i j, i ≤ j → j < l.length → scoreAt l i ≤ scoreAt l j := by
  intro i j hij hj
  rcases eq_or_lt_of_le hij with rfl | hlt
  · exact le_refl _
  · have hi : i < l.length := lt_trans hlt hj
    have hrel := List.pairwise_iff_get.mp h ⟨i, hi⟩ ⟨j, hj⟩ hlt
    simp only [List.get_eq_getElem] at hrel
    rw [scoreAt_eq_getElem l hi, scoreAt_eq_getElem l hj]
    exact hrel

theorem mem_take_scores {l : List (Nat × Int)} {c : Nat} {x : Int}
    (h : x ∈ (l.take c).map Prod.snd) :
    ∃ i, i < c ∧ i < l.length ∧ x = scoreAt l i := by
  rcases List.mem_map.mp h with ⟨pr, hpr, rfl⟩
  rcases List.mem_iff_get.mp hpr with ⟨⟨k, hk⟩, hget⟩
  have hk' := hk
  rw [List.length_take] at hk'
  have hkc : k < c := lt_of_lt_of_le hk' (min_le_left _ _)
  have hkl : k < l.length := lt_of_lt_of_le hk' (min_le_right _ _)
  refine ⟨k, hkc, hkl, ?_⟩
  rw [← hget]
  simp only [List.get_eq_getElem, List.getElem_take]
  rw [scoreAt_eq_getElem l hkl]

theorem mem_drop_scores {l : List (Nat × Int)} {c : Nat} {x : Int}
    (h : x ∈ (l.drop c).map Prod.snd) :
    ∃ j, c ≤ j ∧ j < l.length ∧ x = scoreAt l j := by
  rcases List.mem_map.mp h with ⟨pr, hpr, rfl⟩
  rcases List.mem_iff_get.mp hpr with ⟨⟨k, hk⟩, hget⟩
  have hk' := hk
  rw [List.length_drop] at hk'
  refine ⟨c + k, Nat.le_add_right c k, by omega, ?_⟩
  rw [← hget]
  simp only [List.get_eq_getElem, List.getElem_drop]
  rw [scoreAt_eq_getElem l (show c + k < l.length by omega)]

/-- C2: for two candidate lists sorted ascending by score and a cap
`K ≤ m + n`, `filterScores` keeps exactly `K` items in total, every kept score
is at most every dropped score (so the kept items form the K smallest scores
over both lists), and the recomputed `more_available` bit of `searchCode` is
true exactly when the merge dropped at least one item from either list. -/
theorem filterScores_topK_merge (s1 s2 : List (Nat × Int)) (K : Nat)
    (h1 : s1.Pairwise (fun a b => a.2 ≤ b.2))
    (h2 : s2.Pairwise (fun a b => a.2 ≤ b.2))
    (hK : K ≤ s1.length + s2.length) :
    (filterScores s1 s2 K).1.length + (filterScores s1 s2 K).2.length = K ∧
    (∀ x ∈ ((filterScores s1 s2 K).1 ++ (filterScores s1 s2 K).2).map Prod.snd,
      ∀ y ∈ (s1.drop (filterScores s1 s2 K).1.length ++
             s2.drop (filterScores s1 s2 K).2.length).map Prod.snd,
      x ≤ y) ∧
    (searchCodeMoreAvailable s1 s2 K = true ↔
      (filterScores s1 s2 K).1.length + (filterScores s1 s2 K).2.length
        < s1.length + s2.length) := by
  obtain ⟨a1, a2, a3, a4, a5⟩ :=
    filterScoresLoop_counts s1 s2 K 0 0 (Nat.zero_le _) (Nat.zero_le _)
  obtain ⟨o1, o2⟩ := filterScoresLoop_order s1 s2 (sorted_scoreAt h1) (sorted_scoreAt h2)
    K 0 0 (Nat.zero_le _) (Nat.zero_le _)
  have hc1 : (filterScores s1 s2 K).1 = s1.take (filterScoresLoop s1 s2 K 0 0).1 := rfl
  have hc2 : (filterScores s1 s2 K).2 = s2.take (filterScoresLoop s1 s2 K 0 0).2 := rfl
  have hlen1 : (filterScores s1 s2 K).1.length = (filterScoresLoop s1 s2 K 0 0).1 := by
    rw [hc1, List.length_take]
    omega
  have hlen2 : (filterScores s1 s2 K).2.length = (filterScoresLoop s1 s2 K 0 0).2 := by
    rw [hc2, List.length_take]
    omega
  have htotal : (filterScores s1 s2 K).1.length + (filterScores s1 s2 K).2.length = K := by
    rw [hlen1, hlen2]
    omega
  refine ⟨htotal, ?_, ?_⟩
  · intro x hx y hy
    rw [List.map_append] at hx hy
    rw [hlen1, hlen2] at hy
    rcases List.mem_append.mp hx with hx' | hx' <;>
      rcases List.mem_append.mp hy with hy' | hy'
    · rw [hc1] at hx'
      obtain ⟨i, hik, hil, rfl⟩ := mem_take_scores hx'
      obtain ⟨j, hjc, hjl, rfl⟩ := mem_drop_scores hy'
      exact sorted_scoreAt h1 i j (by omega) hjl
    · rw [hc1] at hx'
      obtain ⟨i, hik, hil, rfl⟩ := mem_take_scores hx'
      obtain ⟨j, hjc, hjl, rfl⟩ := mem_drop_scores hy'
      exact o1 i (Nat.zero_le i) hik j hjc hjl
    · rw [hc2] at hx'
      obtain ⟨i, hik, hil, rfl⟩ := mem_take_scores hx'
      obtain ⟨j, hjc, hjl, rfl⟩ := mem_drop_scores hy'
      exact o2 i (Nat.zero_le i) hik j hjc hjl
    · rw [hc2] at hx'
      obtain ⟨i, hik, hil, rfl⟩ := mem_take_scores hx'
      obtain ⟨j, hjc, hjl, rfl⟩ := mem_drop_scores hy'
      exact sorted_scoreAt h2 i j (by omega) hjl
  · unfold searchCodeMoreAvailable
    constructor
    · intro hor
      rcases Bool.or_eq_true_iff.mp hor with hb | hb
      · have := of_decide_eq_true hb
        omega
      · have := of_decide_eq_true hb
        omega
    · intro hlt
      apply Bool.or_eq_true_iff.mpr
      by_cases hd1 : (filterScores s1 s2 K).1.length < s1.length
      · exact Or.inl (decide_eq_true hd1)
      · refine Or.inr (decide_eq_true ?_)
        omega

/-- C2, witness: at a concrete pair of sorted lists with cap 2, the merge
keeps exactly two items. -/
theorem filterScores_topK_merge_witness :
    (filterScores [(0, 1), (1, 5)] [(0, 2)] 2).1.length +
      (filterScores [(0, 1), (1, 5)] [(0, 2)] 2).2.length = 2 :=
  (filterScores_topK_merge [(0, 1), (1, 5)] [(0, 2)] 2
    (by simp) (by simp) (by simp)).1

/-! ### Claim C6 -/

theorem foldl_add_eq_sum (f : Nat → Int) :
    ∀ (l : List Nat) (a : Int), l.foldl (fun acc j => acc + f j) a = a + (l.map f).sum := by
  intro l
  induction l with
  | nil => intro a; simp
  | cons x xs ih =>
    intro a
    simp only [List.foldl_cons, List.map_cons, List.sum_cons]
    rw [ih]
    ring

theorem sum_map_add_const (g : Nat → Int) (c : Int) :
    ∀ (l : List Nat), (l.map (fun j => g j + c)).sum = (l.map g).sum + l.length * c := by
  intro l
  induction l with
  | nil => simp
  | cons x xs ih =>
    simp only [List.map_cons, List.sum_cons, List.length_cons, ih]
    push_cast
    ring

theorem scoreMatchContrib_eq (s : String) (positions : List Nat) (isFile : Bool) (j : Nat) :
    scoreMatchContrib s positions isFile j
      = (if 1 ≤ positions.getD j 0 &&
            isBoundaryDelim (s.toList.getD (positions.getD j 0 - 1) ' ') isFile
         then (j : Int) + 1 else (positions.getD j 0 : Int))
        + (if lowerString (getExtension s) == ".rd" then 3 else 0) := by
  simp only [scoreMatchContrib]
  generalize positions.getD j 0 = raw
  generalize s.toList.getD (raw - 1) ' ' = pc
  generalize (lowerString (getExtension s) == ".rd") = rd
  by_cases hraw : 1 ≤ raw <;>
    cases hd : isBoundaryDelim pc isFile <;>
      cases rd <;> simp [hraw, hd]

/-- C6: `scoreMatch` implements the documented scoring rule exactly — the
spec-worded scorer `scoreMatchClaim` (raw subsequence positions, the one-based
query index replacing the position of a character that follows a delimiter,
+3 per matched character for a low-value `.Rd` suggestion, a flat +1 for file
candidates, and 0 for an exact match) agrees with it on every input, and in
particular an exact match scores 0. -/
theorem scoreMatch_spec_equiv :
    (∀ (suggestion query : String) (isFile : Bool),
      scoreMatch suggestion query isFile = scoreMatchClaim suggestion query isFile) ∧
    scoreMatch "foo" "foo" false = 0 ∧ scoreMatch "foo" "foo" true = 0 := by
  refine ⟨?_, by decide, by decide⟩
  intro s q isFile
  unfold scoreMatch scoreMatchClaim
  by_cases heq : (s == q) = true
  · simp [heq]
  · simp only [heq, Bool.false_eq_true, if_false]
    have hfun : scoreMatchContrib s
        (subsequenceIndices (lowerString s) (lowerString q)) isFile
        = fun j =>
          (if 1 ≤ (subsequenceIndices (lowerString s) (lowerString q)).getD j 0 &&
              isBoundaryDelim (s.toList.getD
                ((subsequenceIndices (lowerString s) (lowerString q)).getD j 0 - 1) ' ') isFile
           then (j : Int) + 1
           else ((subsequenceIndices (lowerString s) (lowerString q)).getD j 0 : Int))
          + (if lowerString (getExtension s) == ".rd" then 3 else 0) :=
      funext (scoreMatchContrib_eq s _ isFile)
    rw [foldl_add_eq_sum, hfun, sum_map_add_const]
    simp only [List.length_range, zero_add]
    by_cases hrd : (lowerString (getExtension s) == ".rd") = true <;>
      cases isFile <;> simp [hrd] <;> ring

/-! ### Claim C9 -/

theorem subsequenceIndicesAux_length :
    ∀ (s q : List Char) (pos : Nat), isSubsequenceChars s q = true →
    (subsequenceIndicesAux s q pos).length = q.length := by
  intro s
  induction s with
  | nil =>
    intro q pos h
    cases q with
    | nil => rfl
    | cons t ts =>
      rw [isSubsequenceChars] at h
      exact Bool.noConfusion h
  | cons c cs ih =>
    intro q pos h
    cases q with
    | nil => rfl
    | cons t ts =>
      simp only [isSubsequenceChars] at h
      simp only [subsequenceIndicesAux]
      by_cases hct : c = t
      · simp only [hct, if_true] at h ⊢
        simp only [List.length_cons]
        rw [ih ts (pos + 1) h]
      · simp only [hct, if_false] at h ⊢
        exact ih (t :: ts) (pos + 1) h

theorem lowerString_length (q : String) : (lowerString q).length = q.length := by
  show (List.map toLowerChar q.data).length = q.data.length
  simp

/-- C9, amended: `scoreMatch` reads `matches[j]` for every `j` below the query
length; under the precondition that the query is a case-insensitive
subsequence of the suggestion, `subsequenceIndices` returns exactly one
position per query character, so every access is in bounds.  The file-search
caller guarantees the precondition only for plain terms: when the term has no
wildcard and no `:` locator suffix, a filename match implies the
subsequence precondition (a term with a locator suffix does not — see the
counterexample). -/
theorem scoreMatch_inbounds :
    (∀ suggestion query : String,
      isSubsequenceCI suggestion query = true →
      (subsequenceIndices (lowerString suggestion) (lowerString query)).length
        = query.length) ∧
    (∀ name term : String, hasWildcard term = false →
      queryEndOf term = term.length →
      fileNameMatchesPlain name term = true →
      isSubsequenceCI name term = true) := by
  constructor
  · intro s q h
    unfold subsequenceIndices
    rw [subsequenceIndicesAux_length (lowerString s).toList (lowerString q).toList 0 h]
    show (lowerString q).length = q.length
    exact lowerString_length q
  · intro name term _ hqe hmatch
    unfold fileNameMatchesPlain at hmatch
    rw [hqe] at hmatch
    have hterm : String.mk (term.toList.take term.length) = term := by
      show String.mk (term.data.take term.data.length) = term
      rw [List.take_length]
    rw [hterm] at hmatch
    exact hmatch

/-- C9, witness: a subsequence-matching pair is in bounds, and a plain term
with no locator satisfies the precondition through the file matcher. -/
theorem scoreMatch_inbounds_witness :
    (subsequenceIndices (lowerString "get_value") (lowerString "gv")).length
      = ("gv" : String).length ∧
    isSubsequenceCI "abc" "abc" = true :=
  ⟨scoreMatch_inbounds.1 "get_value" "gv" (by decide),
   scoreMatch_inbounds.2 "abc" "abc" (by decide) (by decide) (by decide)⟩

/-- C9, counterexample: the term `a:1` carries a `:` locator suffix, so
`searchFiles` admits the candidate `a.R` (which matches only the portion
before the colon), yet `scoreMatch` runs `subsequenceIndices` on the full
term: the match list has fewer positions than the query has characters, so
the loop's `matches[j]` accesses run out of bounds — the callers do not
always establish the precondition. -/
theorem scoreMatch_precondition_counterexample :
    fileEntryMatches (fun _ => false) "a:1" false "a.R" = true ∧
    (subsequenceIndices (lowerString "a.R") (lowerString "a:1")).length
      < ("a:1" : String).length := by
  decide

/-! ### Claim C7 -/

/-- C7, amended: for every sort behaviour satisfying the `std::sort` contract
(output ascending by score and a permutation of its input), both result
buckets of `searchCode` are ordered by ascending fuzzy score.  The order among
candidates of equal score is whatever the unstable sort produced; it is not
guaranteed to be the original scan order (see the counterexample). -/
theorem searchCode_bucket_sorted
    (sortImpl : List (Nat × Int) → List (Nat × Int))
    (regexMatches : String → Bool) (p : RSourceItem → Bool)
    (filt : RSourceIndex → Bool) (cppDefs : List CppDefinition)
    (hasFileMonitor : Bool) (dbIndexes : List RSourceIndex)
    (entries : List Entry) (term : String) (maxResultsInt : Int)
    (hf : sortContractAt sortImpl (fileScoresOf
        (searchFiles regexMatches hasFileMonitor term 100 dbIndexes entries).1
        (searchFiles regexMatches hasFileMonitor term 100 dbIndexes entries).2.1 term))
    (hs : sortContractAt sortImpl (srcItemScoresOf
        (collectSrcItems p filt dbIndexes entries cppDefs) term)) :
    (searchCode sortImpl regexMatches p filt cppDefs hasFileMonitor dbIndexes entries
        term maxResultsInt).keptFileScores.Pairwise (fun a b => a.2 ≤ b.2) ∧
    (searchCode sortImpl regexMatches p filt cppDefs hasFileMonitor dbIndexes entries
        term maxResultsInt).keptSrcScores.Pairwise (fun a b => a.2 ≤ b.2) := by
  constructor
  · have hk : (searchCode sortImpl regexMatches p filt cppDefs hasFileMonitor dbIndexes
        entries term maxResultsInt).keptFileScores
        = (sortImpl (fileScoresOf
            (searchFiles regexMatches hasFileMonitor term 100 dbIndexes entries).1
            (searchFiles regexMatches hasFileMonitor term 100 dbIndexes entries).2.1
            term)).take
          (filterScoresLoop
            (sortImpl (fileScoresOf
              (searchFiles regexMatches hasFileMonitor term 100 dbIndexes entries).1
              (searchFiles regexMatches hasFileMonitor term 100 dbIndexes entries).2.1 term))
            (sortImpl (srcItemScoresOf (collectSrcItems p filt dbIndexes entries cppDefs) term))
            (searchCodeMaxResults maxResultsInt) 0 0).1 := rfl
    rw [hk]
    exact List.Pairwise.sublist (List.take_sublist _ _) hf.1
  · have hk : (searchCode sortImpl regexMatches p filt cppDefs hasFileMonitor dbIndexes
        entries term maxResultsInt).keptSrcScores
        = (sortImpl (srcItemScoresOf
            (collectSrcItems p filt dbIndexes entries cppDefs) term)).take
          (filterScoresLoop
            (sortImpl (fileScoresOf
              (searchFiles regexMatches hasFileMonitor term 100 dbIndexes entries).1
              (searchFiles regexMatches hasFileMonitor term 100 dbIndexes entries).2.1 term))
            (sortImpl (srcItemScoresOf (collectSrcItems p filt dbIndexes entries cppDefs) term))
            (searchCodeMaxResults maxResultsInt) 0 0).2 := rfl
    rw [hk]
    exact List.Pairwise.sublist (List.take_sublist _ _) hs.1

/-- C7, witness: with the identity sort on a single already-sorted candidate,
both buckets come out ascending. -/
theorem searchCode_bucket_sorted_witness :
    (searchCode id (fun _ => false) (fun _ => false) (fun _ => true) [] true []
        [⟨⟨"a", false⟩, none⟩] "a" 20).keptFileScores.Pairwise
      (fun a b => a.2 ≤ b.2) :=
  (searchCode_bucket_sorted id (fun _ => false) (fun _ => false) (fun _ => true) [] true []
    [⟨⟨"a", false⟩, none⟩] "a" 20 (by constructor <;> decide)
    (by constructor <;> decide)).1

/-- C7, counterexample: reversing a two-element tie is a legal behaviour of
the unstable `std::sort` (the reversed list is still ascending and a
permutation), yet it makes the file bucket come out as `["b", "a"]` even
though the scan produced `["a", "b"]` with equal scores — equal-score
candidates need not appear in their original scan order. -/
theorem searchCode_tie_order_counterexample :
    sortContractAt (fun l => l.reverse) [(0, 1), (1, 1)] ∧
    sortContractAt (fun l => l.reverse) [] ∧
    fileScoresOf ["a", "b"] ["a", "b"] "" = [(0, 1), (1, 1)] ∧
    scoreMatch "a" "" true = scoreMatch "b" "" true ∧
    (searchCode (fun l => l.reverse) (fun _ => false) (fun _ => false) (fun _ => true)
      [] true [] [⟨⟨"a", false⟩, none⟩, ⟨⟨"b", false⟩, none⟩] "" 20).fileNames
      = ["b", "a"] := by
  refine ⟨⟨by decide, by decide⟩, ⟨by decide, by decide⟩, by decide, by decide, by decide⟩

/-! ### Claim C8 -/

/-- C8, amended: disabling tree monitoring unconditionally resets the indexing
flag and drops every Entry Store entry and every queued event; a query issued
immediately afterwards draws nothing from the Entry Store, and returns empty
file and symbol buckets (with `more_available = false`) provided the
live-document index and the C++ definition index contribute nothing — a live
document still produces results (see the counterexample). -/
theorem clear_then_query (st : IndexState)
    (sortImpl : List (Nat × Int) → List (Nat × Int))
    (regexMatches : String → Bool) (p : RSourceItem → Bool)
    (filt : RSourceIndex → Bool) (hasFileMonitor : Bool)
    (term : String) (maxResultsInt : Int)
    (h0 : sortContractAt sortImpl []) :
    (onFileMonitorDisabled st).entries = [] ∧
    (onFileMonitorDisabled st).indexingQueue = [] ∧
    (onFileMonitorDisabled st).indexing = false ∧
    searchCode sortImpl regexMatches p filt [] hasFileMonitor []
      (onFileMonitorDisabled st).entries term maxResultsInt
      = ⟨[], [], [], [], [], false⟩ := by
  have hsi : sortImpl [] = [] := List.Perm.eq_nil h0.2
  refine ⟨rfl, rfl, rfl, ?_⟩
  have hnames : searchFiles regexMatches hasFileMonitor term 100 [] [] = ([], [], false) := by
    cases hasFileMonitor <;> rfl
  have e1 : fileScoresOf (searchFiles regexMatches hasFileMonitor term 100 [] []).1
      (searchFiles regexMatches hasFileMonitor term 100 [] []).2.1 term = [] := by
    rw [hnames]
    rfl
  have e2 : srcItemScoresOf (collectSrcItems p filt [] [] []) term = [] := rfl
  show searchCode sortImpl regexMatches p filt [] hasFileMonitor [] [] term maxResultsInt
      = ⟨[], [], [], [], [], false⟩
  simp only [searchCode, e1, e2, hsi, searchCodeMoreAvailable, filterScores,
    List.take_nil, List.map_nil, List.length_nil, lt_irrefl, decide_False,
    Bool.or_self]

/-- C8, witness for the amended theorem: a populated store is cleared and the
query after disabling returns the empty response. -/
theorem clear_then_query_witness :
    searchCode id (fun _ => false) (fun _ => true) (fun _ => true) [] true []
      (onFileMonitorDisabled ⟨[⟨⟨"f.r", false⟩, none⟩], true, []⟩).entries "run" 20
      = ⟨[], [], [], [], [], false⟩ :=
  (clear_then_query ⟨[⟨⟨"f.r", false⟩, none⟩], true, []⟩ id (fun _ => false)
    (fun _ => true) (fun _ => true) true "run" 20 ⟨List.Pairwise.nil, List.Perm.refl []⟩).2.2.2

/-- C8, counterexample: with a live document `doc1` defining `run` still open,
a query issued immediately after disabling tree monitoring returns a
non-empty symbol bucket — the response buckets are not empty as the claim
states; only the Entry-Store-derived results are gone. -/
theorem clear_then_query_counterexample :
    (searchCode id (fun _ => false) (fun _ => true) (fun _ => true) [] false
      [⟨"doc1", [⟨RSourceItemType.Function, "run", [], "doc1", 1, 1⟩]⟩]
      (onFileMonitorDisabled ⟨[⟨⟨"f.r", false⟩, none⟩], true, []⟩).entries
      "run" 20).srcItems ≠ [] := by
  decide

/-! ### Claim C10 -/

theorem searchFilesLoop_length_le (regexMatches : String → Bool) (term : String)
    (prefOnly : Bool) (maxResults : Nat) :
    ∀ (entries : List Entry) (names paths : List String),
    names.length ≤ maxResults →
    (searchFilesLoop regexMatches term prefOnly maxResults entries names paths).1.length
      ≤ maxResults := by
  intro entries
  induction entries with
  | nil => intro names paths h; exact h
  | cons e rest ih =>
    intro names paths h
    simp only [searchFilesLoop]
    split_ifs with hm hcap
    · simp only [List.length_take]
      omega
    · exact ih _ _ (not_lt.mp hcap)
    · exact ih _ _ h

theorem searchSourceDatabaseFiles_length_le (regexMatches : String → Bool)
    (term : String) (maxResults : Nat) :
    ∀ (idxs : List RSourceIndex) (names paths : List String),
    names.length ≤ maxResults →
    (searchSourceDatabaseFiles regexMatches term maxResults idxs names paths).1.length
      ≤ maxResults := by
  intro idxs
  induction idxs with
  | nil => intro names paths h; exact h
  | cons idx rest ih =>
    intro names paths h
    simp only [searchSourceDatabaseFiles]
    split_ifs with hempty hm hcap
    · exact ih _ _ h
    · simp only [List.length_take]
      omega
    · exact ih _ _ (not_lt.mp hcap)
    · exact ih _ _ h

theorem searchFiles_length_le (regexMatches : String → Bool) (hasFileMonitor : Bool)
    (term : String) (maxResults : Nat) (dbIndexes : List RSourceIndex)
    (entries : List Entry) :
    (searchFiles regexMatches hasFileMonitor term maxResults dbIndexes entries).1.length
      ≤ maxResults := by
  unfold searchFiles projectSearchFiles
  split_ifs
  · exact searchFilesLoop_length_le regexMatches term false maxResults entries [] []
      (Nat.zero_le _)
  · exact searchSourceDatabaseFiles_length_le regexMatches term maxResults dbIndexes [] []
      (Nat.zero_le _)

theorem searchSourceDatabase_length_le (p : RSourceItem → Bool)
    (filt : RSourceIndex → Bool) (maxResults : Nat) :
    ∀ (idxs : List RSourceIndex) (items : List RSourceItem) (ctxs : List String),
    items.length ≤ maxResults →
    (searchSourceDatabase p filt maxResults idxs items ctxs).1.length ≤ maxResults := by
  intro idxs
  induction idxs with
  | nil => intro items ctxs h; exact h
  | cons idx rest ih =>
    intro items ctxs h
    simp only [searchSourceDatabase]
    split_ifs with hfilt hcap
    · simp only [List.length_take]
      omega
    · exact ih _ _ (le_of_lt (not_le.mp hcap))
    · exact ih _ _ h

theorem searchProjectSource_length_le (p : RSourceItem → Bool) (maxResults : Nat)
    (excludeContexts : List String) :
    ∀ (entries : List Entry) (acc : List RSourceItem),
    acc.length ≤ maxResults →
    (searchProjectSource p maxResults excludeContexts entries acc).length ≤ maxResults := by
  intro entries
  induction entries with
  | nil => intro acc h; exact h
  | cons e rest ih =>
    intro acc h
    cases hidx : e.pIndex with
    | none =>
      simp only [searchProjectSource, hidx]
      exact ih acc h
    | some idx =>
      simp only [searchProjectSource, hidx]
      split_ifs with hexc hcap
      · exact ih acc h
      · simp only [List.length_take]
        omega
      · exact ih _ (le_of_lt (not_le.mp hcap))

theorem pushItemsCapped_length_le (maxResults : Nat) :
    ∀ (toPush items : List RSourceItem), items.length ≤ maxResults →
    (pushItemsCapped maxResults items toPush).1.length ≤ maxResults := by
  intro toPush
  induction toPush with
  | nil => intro items h; exact h
  | cons a as ih =>
    intro items h
    simp only [pushItemsCapped]
    split_ifs with hcap
    · simp only [List.length_take]
      omega
    · exact ih _ (not_lt.mp hcap)

theorem searchSource_length_le (p : RSourceItem → Bool) (filt : RSourceIndex → Bool)
    (maxResults : Nat) (dbIndexes : List RSourceIndex) (entries : List Entry) :
    (searchSource p filt maxResults dbIndexes entries).1.length ≤ maxResults := by
  simp only [searchSource]
  have hdb := searchSourceDatabase_length_le p filt maxResults dbIndexes [] []
    (Nat.zero_le _)
  split_ifs with hcap
  · simp only [List.length_take]
    omega
  · exact pushItemsCapped_length_le maxResults _ _ hdb

/-- C10, amended: `searchCode` collects at most 100 file candidates and at
most 100 R-source symbol candidates regardless of the requested cap (the
hard-coded `1E2`); C++ definition candidates are appended after that
collection without any cap.  `more_available` is recomputed solely from
whether the bounded merge dropped candidates, discarding the collection-phase
truncation flags: in the concrete scenario, 101 entries match the query but
only 100 are collected, the merge at cap 150 keeps them all, and the response
reports `more_available = false` even though more than 100 matches exist. -/
theorem searchCode_collection_caps :
    (∀ (regexMatches : String → Bool) (hasFileMonitor : Bool) (term : String)
        (dbIndexes : List RSourceIndex) (entries : List Entry),
      (searchFiles regexMatches hasFileMonitor term 100 dbIndexes entries).1.length ≤ 100) ∧
    (∀ (p : RSourceItem → Bool) (filt : RSourceIndex → Bool)
        (dbIndexes : List RSourceIndex) (entries : List Entry),
      (searchSource p filt 100 dbIndexes entries).1.length ≤ 100) ∧
    (searchCode id (fun _ => false) (fun _ => false) (fun _ => true) [] true []
      ((List.range 101).map (fun i => ⟨⟨String.mk (List.replicate (i+1) 'a'), false⟩, none⟩))
      "" 150).moreAvailable = false ∧
    (((List.range 101).map (fun i =>
        (⟨⟨String.mk (List.replicate (i+1) 'a'), false⟩, none⟩ : Entry))).filter
      (fun e => fileEntryMatches (fun _ => false) "" false
        (fileNameOfPath e.fileInfo.absolutePath))).length = 101 := by
  refine ⟨?_, ?_, by decide, by decide⟩
  · intro regexMatches hasFileMonitor term dbIndexes entries
    exact searchFiles_length_le regexMatches hasFileMonitor term 100 dbIndexes entries
  · intro p filt dbIndexes entries
    exact searchSource_length_le p filt 100 dbIndexes entries

/-- C10, counterexample: the external C++ definition search is appended to the
symbol candidates without a cap, so 101 matching C++ definitions yield 101
symbol candidates collected before scoring — more than the claimed hard limit
of 100. -/
theorem searchCode_cpp_uncapped_counterexample :
    100 < (collectSrcItems (fun _ => false) (fun _ => true) [] []
      (List.replicate 101
        ⟨CppDefinitionKind.CppFunctionDefinition, "f", "x.cpp", 1, 1⟩)).length := by
  decide
